import Mathlib

/-!
Verification of the indexing/retrieval pipeline of `llm-target-determinator`.

Each definition below is a shallow embedding of a function of the repository
(file and line references are given in the doc comments).  Machine-level
collaborators that the repository treats as opaque (the subword tokenizer,
the embedding model, the Python grammar) are taken as function parameters,
exactly as the specification declares them external.  Theorems named
`claimN...` settle the frozen claims about the specification.
-/

namespace TDet

/-! ## Chunked tokenization (`get_tokens_from_directory.py`) -/

/-- Constant `MAX_TOKENS = 8292` from `get_tokens_from_directory.py` line 18. -/
def MAX_TOKENS : Nat := 8292

/-- Model of `torch.split(tokens, n, dim=1)`: consecutive, non-overlapping
slices of `n` tokens each, the final slice possibly shorter.  The `n = 0`
guard is never exercised by the code (it always passes `MAX_TOKENS`). -/
def splitChunks (n : Nat) (l : List Nat) : List (List Nat) :=
  if n = 0 ∨ l.length ≤ n then [l]
  else l.take n :: splitChunks n (l.drop n)
termination_by l.length
decreasing_by
  simp only [List.length_drop]
  omega

/-- Embedding of the tokenize-and-chunk step of `get_tokens_from_file`
(`get_tokens_from_directory.py` lines 106-112): the external tokenizer
`encode` is applied once to the unit text; if the resulting sequence has
`≥ MAX_TOKENS` tokens it is split into `MAX_TOKENS`-sized chunks
(`torch.split`), otherwise it is wrapped as a single chunk. -/
def tokenizeAndChunk (encode : String → List Nat) (text : String) :
    List (List Nat) :=
  let tokens := encode text
  if tokens.length ≥ MAX_TOKENS then splitChunks MAX_TOKENS tokens
  else [tokens]

theorem splitChunks_flatten (n : Nat) (l : List Nat) :
    (splitChunks n l).flatten = l := by
  induction l using splitChunks.induct n with
  | case1 l h => rw [splitChunks, if_pos h]; simp
  | case2 l h ih =>
    rw [splitChunks, if_neg h]
    simp [ih]

theorem splitChunks_chunk_le (n : Nat) (hn : n ≠ 0) (l : List Nat) :
    n ≤ l.length → ∀ c ∈ splitChunks n l, c.length ≤ n := by
  induction l using splitChunks.induct n with
  | case1 l h =>
    intro hl c hc
    rw [splitChunks, if_pos h] at hc
    simp only [List.mem_singleton] at hc
    subst hc
    rcases h with h | h
    · exact absurd h hn
    · exact h
  | case2 l h ih =>
    intro hl c hc
    rw [splitChunks, if_neg h] at hc
    push_neg at h
    simp only [List.mem_cons] at hc
    rcases hc with hc | hc
    · subst hc
      simp [List.length_take]
    · rcases le_or_lt n (l.drop n).length with hd | hd
      · exact ih hd c hc
      · rw [splitChunks, if_pos (Or.inr hd.le)] at hc
        simp only [List.mem_singleton] at hc
        subst hc
        exact hd.le

theorem splitChunks_init_length (n : Nat) (l : List Nat) (i : Nat)
    (hi : i + 1 < (splitChunks n l).length) :
    ((splitChunks n l).getD i []).length = n := by
  induction l using splitChunks.induct n generalizing i with
  | case1 l h =>
    rw [splitChunks, if_pos h] at hi
    simp at hi
  | case2 l h ih =>
    rw [splitChunks, if_neg h] at hi ⊢
    push_neg at h
    match i with
    | 0 =>
      simp only [List.getD_cons_zero, List.length_take]
      omega
    | i + 1 =>
      simp only [List.getD_cons_succ]
      simp only [List.length_cons] at hi
      exact ih i (by omega)

/-- Claim C2: for every unit text, the tokenize-and-chunk step produces the
single token sequence as one chunk whenever its length is below
`MAX_TOKENS`, and otherwise consecutive, non-overlapping chunks in original
token order whose non-final members have exactly `MAX_TOKENS` tokens; the
concatenation of the chunks always reproduces the original token sequence
and no chunk exceeds `MAX_TOKENS` tokens. -/
theorem claim2_tokenize_and_chunk (encode : String → List Nat) (text : String) :
    ((encode text).length < MAX_TOKENS →
      tokenizeAndChunk encode text = [encode text]) ∧
    (tokenizeAndChunk encode text).flatten = encode text ∧
    (∀ c ∈ tokenizeAndChunk encode text, c.length ≤ MAX_TOKENS) ∧
    (∀ i, i + 1 < (tokenizeAndChunk encode text).length →
      ((tokenizeAndChunk encode text).getD i []).length = MAX_TOKENS) := by
  have hdef : tokenizeAndChunk encode text =
      if (encode text).length ≥ MAX_TOKENS then
        splitChunks MAX_TOKENS (encode text)
      else [encode text] := rfl
  by_cases h : (encode text).length ≥ MAX_TOKENS
  · rw [hdef, if_pos h]
    refine ⟨fun hlt => absurd h (by omega), splitChunks_flatten _ _, ?_, ?_⟩
    · exact splitChunks_chunk_le MAX_TOKENS (by decide) (encode text) h
    · intro i hi
      exact splitChunks_init_length MAX_TOKENS (encode text) i hi
  · rw [hdef, if_neg h]
    push_neg at h
    refine ⟨fun _ => rfl, by simp, ?_, ?_⟩
    · intro c hc
      simp only [List.mem_singleton] at hc
      subst hc
      omega
    · intro i hi
      simp at hi

/-- Witness for C2 at a concrete three-token tokenizer: the sequence is below
`MAX_TOKENS`, so the result is that sequence as a single chunk. -/
theorem claim2_witness :
    tokenizeAndChunk (fun _ => [1, 2, 3]) "def f(): pass" = [[1, 2, 3]] :=
  (claim2_tokenize_and_chunk (fun _ => [1, 2, 3]) "def f(): pass").1 (by decide)

end TDet

namespace TDet

/-! ## Scope filter and code-unit extraction (`get_tokens_from_directory.py`) -/

/-- Embedding of the helper `_is_in_scope(begin_lineno, end_lineno,
selected_lines)` (`get_tokens_from_directory.py` lines 22-36): an empty
filter admits everything; otherwise a flag starts `False` and is set when a
range does not satisfy the disjoint test `end < begin_sel or begin >
end_sel`. -/
def isInScope (beginLineno endLineno : Nat)
    (selectedLines : List (Nat × Nat)) : Bool :=
  if selectedLines.isEmpty then true
  else selectedLines.foldl
    (fun overlapping scope =>
      if endLineno < scope.1 ∨ beginLineno > scope.2 then overlapping
      else true)
    false

/-- Python AST node as far as `get_function_text_from_file` inspects it: a
`FunctionDef` or `ClassDef` carries its name, `lineno`, `end_lineno`, the
source segment `ast.get_source_segment` would return, and its child nodes;
every other node kind only contributes children to the walk. -/
inductive PyNode where
  | functionDef (name : String) (lineno endLineno : Nat) (src : String)
      (body : List PyNode)
  | classDef (name : String) (lineno endLineno : Nat) (src : String)
      (body : List PyNode)
  | otherNode (body : List PyNode)

/-- Child nodes, as `ast.iter_child_nodes` enumerates them. -/
def childrenOf : PyNode → List PyNode
  | .functionDef _ _ _ _ body => body
  | .classDef _ _ _ _ body => body
  | .otherNode body => body

mutual
def PyNode.size : PyNode → Nat
  | .functionDef _ _ _ _ body => 1 + PyNode.sizeList body
  | .classDef _ _ _ _ body => 1 + PyNode.sizeList body
  | .otherNode body => 1 + PyNode.sizeList body
def PyNode.sizeList : List PyNode → Nat
  | [] => 0
  | n :: ns => PyNode.size n + PyNode.sizeList ns
end

theorem sizeList_append (a b : List PyNode) :
    PyNode.sizeList (a ++ b) = PyNode.sizeList a + PyNode.sizeList b := by
  induction a with
  | nil => simp [PyNode.sizeList]
  | cons n ns ih =>
    show PyNode.sizeList (n :: (ns ++ b)) = PyNode.sizeList (n :: ns) + _
    rw [PyNode.sizeList, PyNode.sizeList, ih]
    omega

theorem sizeList_childrenOf_lt (n : PyNode) :
    PyNode.sizeList (childrenOf n) < PyNode.size n := by
  cases n <;> simp [childrenOf, PyNode.size]

/-- Breadth-first traversal of `ast.walk`: pop the queue head, push its
children at the back, yield the node.  `ast.walk(module)` yields the module
object first (it is neither a `FunctionDef` nor a `ClassDef`, so it
contributes nothing); we walk from the module's child statements. -/
def walkNodes (queue : List PyNode) : List PyNode :=
  match queue with
  | [] => []
  | n :: rest => n :: walkNodes (rest ++ childrenOf n)
termination_by PyNode.sizeList queue
decreasing_by
  rw [sizeList_append]
  have h := sizeList_childrenOf_lt n
  simp only [PyNode.sizeList]
  omega

/-- Entries the loop body of `get_function_text_from_file` (lines 45-59)
produces for one walked node: a `FunctionDef` in scope yields `(name,
source)`; a `ClassDef` yields `(Class.name, source)` for each in-scope
`FunctionDef` of its direct body; anything else yields nothing. -/
def nodeEntries (selectedLines : List (Nat × Nat)) :
    PyNode → List (String × String)
  | .functionDef name lineno endLineno src _ =>
      if isInScope lineno endLineno selectedLines then [(name, src)] else []
  | .classDef cname _ _ _ body =>
      body.flatMap fun sub =>
        match sub with
        | .functionDef sname lineno endLineno src _ =>
            if isInScope lineno endLineno selectedLines then
              [(cname ++ "." ++ sname, src)]
            else []
        | _ => []
  | .otherNode _ => []

/-- Sequence of `(signature, body)` assignments performed by the walk loop,
in visit order. -/
def visitEntries (module : List PyNode)
    (selectedLines : List (Nat × Nat)) : List (String × String) :=
  (walkNodes module).flatMap (nodeEntries selectedLines)

/-- Python `dict` assignment `d[k] = v`: an existing key keeps its position
and gets the new value, a fresh key is appended. -/
def dictInsert {β : Type} (d : List (String × β)) (k : String) (v : β) :
    List (String × β) :=
  match d with
  | [] => [(k, v)]
  | p :: rest => if p.1 = k then (k, v) :: rest else p :: dictInsert rest k v

/-- Python `dict` lookup `d[k]` as an option. -/
def mfind {β : Type} (d : List (String × β)) (k : String) : Option β :=
  match d with
  | [] => none
  | p :: rest => if p.1 = k then some p.2 else mfind rest k

/-- Value attached to the key by the latest pair of the sequence holding it:
first match of the reversed sequence. -/
def lastEntry {β : Type} (pairs : List (String × β)) (k : String) :
    Option β :=
  mfind pairs.reverse k

/-- Embedding of `get_function_text_from_file` after a successful parse:
the `functions` dict built by the walk loop
(`get_tokens_from_directory.py` lines 43-61). -/
def extractFunctions (module : List PyNode)
    (selectedLines : List (Nat × Nat)) : List (String × String) :=
  (visitEntries module selectedLines).foldl
    (fun d p => dictInsert d p.1 p.2) []

end TDet

namespace TDet

theorem walkNodes_nil : walkNodes [] = [] := by
  rw [walkNodes.eq_def]

theorem walkNodes_cons (n : PyNode) (rest : List PyNode) :
    walkNodes (n :: rest) = n :: walkNodes (rest ++ childrenOf n) := by
  rw [walkNodes.eq_def]

theorem isInScope_foldl (b e : Nat) (sel : List (Nat × Nat)) (acc : Bool) :
    sel.foldl
      (fun overlapping scope =>
        if e < scope.1 ∨ b > scope.2 then overlapping else true)
      acc
    = (acc || sel.any fun scope => decide ¬(e < scope.1 ∨ b > scope.2)) := by
  induction sel generalizing acc with
  | nil => simp
  | cons s rest ih =>
    simp only [List.foldl_cons, List.any_cons]
    rw [ih]
    by_cases h : e < s.1 ∨ b > s.2
    · simp [h]
    · simp [h]

/-- Claim C4: a unit is admitted exactly when the scope filter is empty or
its inclusive line interval overlaps some selected range; the three worked
examples of the filter `[(10, 20)]`; and the extraction of a module holding
one top-level function includes that function exactly under the same
condition. -/
theorem claim4_scope_overlap :
    (∀ b e sel, isInScope b e sel = true ↔
      (sel = [] ∨ ∃ p ∈ sel, ¬(e < p.1 ∨ b > p.2))) ∧
    isInScope 5 9 [(10, 20)] = false ∧
    isInScope 15 25 [(10, 20)] = true ∧
    isInScope 1 3 [(10, 20)] = false ∧
    (∀ name b e src sel,
      mfind (extractFunctions [PyNode.functionDef name b e src []] sel) name
        = if isInScope b e sel then some src else none) := by
  refine ⟨?_, by decide, by decide, by decide, ?_⟩
  · intro b e sel
    unfold isInScope
    rcases sel with _ | ⟨s, rest⟩
    · simp
    · rw [if_neg (by simp)]
      rw [isInScope_foldl]
      simp only [Bool.false_or, List.any_eq_true, decide_eq_true_eq]
      constructor
      · rintro ⟨p, hp, hover⟩
        exact Or.inr ⟨p, hp, hover⟩
      · rintro (h | ⟨p, hp, hover⟩)
        · exact absurd h (by simp)
        · exact ⟨p, hp, hover⟩
  · intro name b e src sel
    have hwalk : walkNodes [PyNode.functionDef name b e src []]
        = [PyNode.functionDef name b e src []] := by
      rw [walkNodes_cons]
      simp [childrenOf, walkNodes_nil]
    unfold extractFunctions visitEntries
    rw [hwalk]
    simp only [List.flatMap_cons, List.flatMap_nil, List.append_nil,
      nodeEntries]
    by_cases h : isInScope b e sel = true
    · simp [h, dictInsert, mfind]
    · rw [if_neg h]
      simp only [Bool.not_eq_true] at h
      simp [h, mfind]

theorem mfind_append {β : Type} (a c : List (String × β)) (k : String) :
    mfind (a ++ c) k = (mfind a k).or (mfind c k) := by
  induction a with
  | nil => simp [mfind]
  | cons p rest ih =>
    by_cases h : p.1 = k
    · simp [mfind, h]
    · simp [mfind, h, ih]

theorem mfind_dictInsert {β : Type} (d : List (String × β)) (k k' : String)
    (v : β) :
    mfind (dictInsert d k v) k'
      = if k = k' then some v else mfind d k' := by
  induction d with
  | nil => simp [dictInsert, mfind]
  | cons p rest ih =>
    by_cases hp : p.1 = k
    · rw [dictInsert, if_pos hp, mfind, mfind]
      by_cases h : k = k'
      · simp [h]
      · have hp' : ¬ p.1 = k' := fun he => h (hp ▸ he)
        simp [h, hp']
    · rw [dictInsert, if_neg hp, mfind, mfind, ih]
      by_cases h : p.1 = k'
      · have hk : ¬ k = k' := fun he => hp (by rw [h, he])
        simp [h, hk]
      · simp [h]

theorem keys_dictInsert {β : Type} (d : List (String × β)) (k : String)
    (v : β) :
    (dictInsert d k v).map Prod.fst
      = if k ∈ d.map Prod.fst then d.map Prod.fst
        else d.map Prod.fst ++ [k] := by
  induction d with
  | nil => simp [dictInsert]
  | cons p rest ih =>
    by_cases hp : p.1 = k
    · simp [dictInsert, hp]
    · have : ¬ k = p.1 := fun he => hp he.symm
      simp only [dictInsert, if_neg hp, List.map_cons, List.mem_cons, this,
        false_or, ih]
      by_cases hk : k ∈ rest.map Prod.fst
      · simp [hk]
      · simp [hk]

theorem nodup_keys_dictInsert {β : Type} (d : List (String × β)) (k : String)
    (v : β) (h : (d.map Prod.fst).Nodup) :
    ((dictInsert d k v).map Prod.fst).Nodup := by
  rw [keys_dictInsert]
  by_cases hk : k ∈ d.map Prod.fst
  · simpa [hk] using h
  · rw [if_neg hk]
    simpa [List.nodup_append, hk] using h

theorem buildDict_spec {β : Type} (pairs : List (String × β))
    (d : List (String × β)) (hd : (d.map Prod.fst).Nodup) :
    ((pairs.foldl (fun d p => dictInsert d p.1 p.2) d).map Prod.fst).Nodup ∧
    ∀ k, mfind (pairs.foldl (fun d p => dictInsert d p.1 p.2) d) k
      = (lastEntry pairs k).or (mfind d k) := by
  induction pairs generalizing d with
  | nil => simpa [lastEntry, mfind] using hd
  | cons p rest ih =>
    simp only [List.foldl_cons]
    have h2 := ih (dictInsert d p.1 p.2) (nodup_keys_dictInsert d p.1 p.2 hd)
    refine ⟨h2.1, ?_⟩
    intro k
    rw [h2.2 k]
    unfold lastEntry
    simp only [List.reverse_cons]
    rw [mfind_append, mfind_dictInsert]
    by_cases h : p.1 = k
    · simp [mfind, h, Option.or_assoc]
    · simp [mfind, h]

/-- Claim C9: the mapping returned by extraction holds exactly one entry per
qualified name, and on a collision the node visited later overwrites the
earlier one: the value found for a name is the one of the latest visited
in-scope node carrying it.  A module with two same-named top-level
functions keeps only the later function's text. -/
theorem claim9_later_node_overwrites :
    (∀ module sel,
      ((extractFunctions module sel).map Prod.fst).Nodup ∧
      ∀ name, mfind (extractFunctions module sel) name
        = lastEntry (visitEntries module sel) name) ∧
    extractFunctions
      [PyNode.functionDef "g" 1 2 "def g(): return 1" [],
       PyNode.functionDef "g" 4 5 "def g(): return 2" []] []
      = [("g", "def g(): return 2")] := by
  constructor
  · intro module sel
    have h := buildDict_spec (visitEntries module sel) [] (by simp)
    unfold extractFunctions
    refine ⟨h.1, fun name => ?_⟩
    rw [h.2 name]
    simp [mfind]
  · have hwalk : walkNodes
        [PyNode.functionDef "g" 1 2 "def g(): return 1" [],
         PyNode.functionDef "g" 4 5 "def g(): return 2" []]
        = [PyNode.functionDef "g" 1 2 "def g(): return 1" [],
           PyNode.functionDef "g" 4 5 "def g(): return 2" []] := by
      rw [walkNodes_cons]
      simp [childrenOf, walkNodes_cons, walkNodes_nil]
    unfold extractFunctions visitEntries
    rw [hwalk]
    simp [nodeEntries, isInScope, dictInsert]

end TDet

namespace TDet

/-! ## Filtering test units (`get_tokens_from_file`) -/

/-- Python `str.startswith(pre)` for string arguments: plain prefix test. -/
def pyStartsWith (s pre : String) : Bool := pre.data.isPrefixOf s.data

/-- Literal part `\.test_` of the regex `.*\.test_.*`. -/
def dotTestPat : List Char := ['.', 't', 'e', 's', 't', '_']

/-- Embedding of `re.match(r".*\.test_.*", name)` as a Boolean: `re.match`
anchors at the start and succeeds on a prefix match, so the pattern holds
iff some position reachable by `.*` (consuming only non-newline characters)
starts with the literal `.test_`; the trailing `.*` matches the empty
string. -/
def reMatchDotTest : List Char → Bool
  | [] => false
  | c :: rest =>
      dotTestPat.isPrefixOf (c :: rest) || (c != '\n' && reMatchDotTest rest)

/-- Filter in the extraction loop of `get_tokens_from_file`
(`get_tokens_from_directory.py` lines 97-103): a unit is skipped iff
`tests_only` is set and its name neither starts with `"test"` nor matches
`.*\.test_.*`; `keepUnit` is the negation of that skip condition. -/
def keepUnit (testsOnly : Bool) (functionName : String) : Bool :=
  !(testsOnly && !pyStartsWith functionName "test"
      && !reMatchDotTest functionName.data)

/-- Embedding of the token-collection loop of `get_tokens_from_file`
(`get_tokens_from_directory.py` lines 93-118) on a cache miss: extract the
function dict, drop units failing the `tests_only` filter, chunk-tokenize
every kept unit and store it under the key `str(file_path) + ":" +
function_name`.  The filesystem cache consulted before this loop is
outside the embedding. -/
def getTokensFromFile (encode : String → List Nat) (filePath : String)
    (testsOnly : Bool) (module : List PyNode)
    (selectedLines : List (Nat × Nat)) : List (String × List (List Nat)) :=
  (extractFunctions module selectedLines).foldl
    (fun d p =>
      if keepUnit testsOnly p.1 then
        dictInsert d (filePath ++ ":" ++ p.1) (tokenizeAndChunk encode p.2)
      else d)
    []

/-- File of the C3 example: top-level `test_foo` and `helper`, and a class
`C` with method `test_bar`. -/
def exModuleC3 : List PyNode :=
  [PyNode.functionDef "test_foo" 2 3 "def test_foo(): pass" [],
   PyNode.functionDef "helper" 5 6 "def helper(): pass" [],
   PyNode.classDef "C" 8 10 "class C: def test_bar(self): pass"
     [PyNode.functionDef "test_bar" 9 10 "def test_bar(self): pass" []]]

theorem walk_exModuleC3 : walkNodes exModuleC3 =
    [PyNode.functionDef "test_foo" 2 3 "def test_foo(): pass" [],
     PyNode.functionDef "helper" 5 6 "def helper(): pass" [],
     PyNode.classDef "C" 8 10 "class C: def test_bar(self): pass"
       [PyNode.functionDef "test_bar" 9 10 "def test_bar(self): pass" []],
     PyNode.functionDef "test_bar" 9 10 "def test_bar(self): pass" []] := by
  unfold exModuleC3
  rw [walkNodes_cons]
  simp only [childrenOf, List.append_nil, List.nil_append]
  rw [walkNodes_cons]
  simp only [childrenOf, List.append_nil, List.nil_append]
  rw [walkNodes_cons]
  simp only [childrenOf, List.append_nil, List.nil_append]
  rw [walkNodes_cons]
  simp only [childrenOf, List.append_nil, List.nil_append, walkNodes_nil]

/-- Counterexample to claim C3: with `tests_only = True` the example file
yields three kept units, not two — the AST walk reaches the method node
itself, so `test_bar` is extracted a second time without its class
qualifier, and its bare name also passes the filter. -/
theorem claim3_counterexample :
    ((getTokensFromFile (fun _ => [1]) "f.py" true exModuleC3 []).map
        Prod.fst
      = ["f.py:test_foo", "f.py:C.test_bar", "f.py:test_bar"]) ∧
    (getTokensFromFile (fun _ => [1]) "f.py" true exModuleC3 []).length
      ≠ 2 := by
  have h : getTokensFromFile (fun _ => [1]) "f.py" true exModuleC3 []
      = [("f.py:test_foo", [[1]]),
         ("f.py:C.test_bar", [[1]]),
         ("f.py:test_bar", [[1]])] := by
    unfold getTokensFromFile extractFunctions visitEntries
    rw [walk_exModuleC3]
    simp [nodeEntries, isInScope, dictInsert, keepUnit, pyStartsWith,
      reMatchDotTest, dotTestPat, List.isPrefixOf, tokenizeAndChunk,
      MAX_TOKENS]
  rw [h]
  constructor
  · rfl
  · decide

/-- Amendment of claim C3: the example file keeps exactly three entries
(`test_foo`, `C.test_bar`, and the unqualified duplicate `test_bar`), and
in general a unit passes the `tests_only = True` filter exactly when its
qualified name starts with `"test"` or matches `.*\.test_.*`. -/
theorem claim3_tests_only_amended :
    ((getTokensFromFile (fun _ => [1]) "f.py" true exModuleC3 []).map
        Prod.fst
      = ["f.py:test_foo", "f.py:C.test_bar", "f.py:test_bar"]) ∧
    (∀ name, keepUnit true name
      = (pyStartsWith name "test" || reMatchDotTest name.data)) := by
  constructor
  · have h : getTokensFromFile (fun _ => [1]) "f.py" true exModuleC3 []
        = [("f.py:test_foo", [[1]]),
           ("f.py:C.test_bar", [[1]]),
           ("f.py:test_bar", [[1]])] := by
      unfold getTokensFromFile extractFunctions visitEntries
      rw [walk_exModuleC3]
      simp [nodeEntries, isInScope, dictInsert, keepUnit, pyStartsWith,
        reMatchDotTest, dotTestPat, List.isPrefixOf, tokenizeAndChunk,
        MAX_TOKENS]
    rw [h]
    rfl
  · intro name
    unfold keepUnit
    cases pyStartsWith name "test" <;> cases reMatchDotTest name.data <;> rfl

end TDet

namespace TDet

/-! ## Parse failures (`get_function_text_from_file`, lines 38-43) -/

/-- Grammar-level detail of a syntax error; producing it is the business of
the external Python parser. -/
inductive ParseDetail where
  | invalidSyntax (lineno offset : Nat)
deriving DecidableEq

/-- Python `SyntaxError` as `ast.parse` raises it: it carries the filename
the compile call was given. -/
structure PySyntaxError where
  filename : String
  detail : ParseDetail
deriving DecidableEq

/-- Embedding of `get_function_text_from_file` including the parse step
(`get_tokens_from_directory.py` lines 38-61).  The code calls
`ast.parse(content)` with the file content only — the `filename` argument
of `ast.parse` is left at its CPython default `"<unknown>"` — so a failed
parse aborts the extraction with an error that records `"<unknown>"`, not
the processed file's name, and no partial mapping is produced. -/
def getFunctionTextFromFile
    (parse : String → Except ParseDetail (List PyNode))
    (filename content : String) (selectedLines : List (Nat × Nat)) :
    Except PySyntaxError (List (String × String)) :=
  match parse content with
  | .error d => .error ⟨"<unknown>", d⟩
  | .ok module => .ok (extractFunctions module selectedLines)

/-- Concrete external parser behaviour on the malformed content of the C8
counterexample. -/
def badParse : String → Except ParseDetail (List PyNode) :=
  fun _ => .error (.invalidSyntax 1 7)

/-- Counterexample to claim C8: extraction of the syntactically invalid
file `bad.py` does fail as a whole, but the parse error names
`"<unknown>"`, not the offending file. -/
theorem claim8_counterexample :
    getFunctionTextFromFile badParse "bad.py" "def f(:" []
        = .error ⟨"<unknown>", .invalidSyntax 1 7⟩ ∧
    ("<unknown>" : String) ≠ "bad.py" :=
  ⟨rfl, by decide⟩

/-- Amendment of claim C8: for every syntactically invalid source file the
whole extraction fails — no partial mapping is returned — but the error
carries the parser default `"<unknown>"` in place of the offending file's
name, whatever filename was being processed. -/
theorem claim8_parse_error_amended
    (parse : String → Except ParseDetail (List PyNode))
    (filename content : String) (sel : List (Nat × Nat)) (d : ParseDetail)
    (h : parse content = .error d) :
    getFunctionTextFromFile parse filename content sel
      = .error ⟨"<unknown>", d⟩ := by
  unfold getFunctionTextFromFile
  rw [h]

/-- Witness for the amended C8 at the concrete bad file. -/
theorem claim8_witness :
    getFunctionTextFromFile badParse "some_test.py" "def f(:" []
      = .error ⟨"<unknown>", .invalidSyntax 1 7⟩ :=
  claim8_parse_error_amended badParse "some_test.py" "def f(:" []
    (.invalidSyntax 1 7) rfl

/-! ## Effective directory resolution (`get_effective_directory`) -/

/-- The two Python exception shapes `get_effective_directory` can surface:
an explicit `raise Exception(...)` and the `TypeError` the runtime raises
for `str.startswith` with a non-string argument. -/
inductive PyErr where
  | raised (msg : String)
  | typeError (msg : String)
deriving DecidableEq

/-- Argument actually passed to `str.startswith`; the code passes the
`Path` object `repo_dir`, not a string. -/
inductive PyStrArg where
  | strArg (s : String)
  | pathArg (s : String)

/-- Python `str.startswith(arg)`: a string argument is a prefix test; any
other object (such as `pathlib.PosixPath`) raises `TypeError`. -/
def pyStartswithArg (s : String) (arg : PyStrArg) : Except PyErr Bool :=
  match arg with
  | .strArg pre => .ok (pyStartsWith s pre)
  | .pathArg _ =>
      .error (.typeError
        "startswith first arg must be str or a tuple of str, not PosixPath")

/-- `PurePosixPath.is_absolute`: the path starts with `/`. -/
def pyIsAbsolute (p : String) : Bool := pyStartsWith p "/"

/-- Embedding of `get_effective_directory(repo_dir, directory)`
(`get_tokens_from_directory.py` lines 125-151).  The subdirectory test on
line 132 is `str(directory).startswith(repo_dir)` where `repo_dir` is a
`Path` object, hence the `pathArg` below; `repo_dir / directory` for a
relative directory is modelled as joining with a separator. -/
def getEffectiveDirectory (repoDir : Option String) (directory : String) :
    Except PyErr String :=
  match repoDir with
  | some rd =>
    if !pyIsAbsolute rd then
      .error (.raised ("repo_dir " ++ rd ++ " must be an absolute path"))
    else if pyIsAbsolute directory then
      match pyStartswithArg directory (.pathArg rd) with
      | .error e => .error e
      | .ok b =>
        if !b then
          .error (.raised ("Directory " ++ directory
            ++ " is not a subdirectory of " ++ rd))
        else .ok directory
    else if pyStartsWith directory "~" then
      .error (.raised ("Dont use ~ in your path. Directory " ++ directory
        ++ " must be a subdirectory of " ++ rd))
    else .ok (rd ++ "/" ++ directory)
  | none => .ok directory

/-- Claim C5 names a code bug: the non-absolute root is indeed rejected
with a configuration error, and a relative scan directory is resolved
under the root; but a valid absolute subdirectory is not returned
unchanged — every absolute scan directory (subdirectory or not) hits the
`str.startswith(repo_dir)` call with a `Path` argument on line 132 and the
resolution dies with a `TypeError` instead. -/
theorem claim5_absolute_subdir_type_error :
    getEffectiveDirectory (some "/repo") "/repo/test"
        = .error (.typeError
          "startswith first arg must be str or a tuple of str, not PosixPath")
      ∧
    getEffectiveDirectory (some "relative/root") "test"
        = .error (.raised "repo_dir relative/root must be an absolute path")
      ∧
    getEffectiveDirectory (some "/repo") "test" = .ok "/repo/test" :=
  ⟨rfl, rfl, rfl⟩

end TDet

namespace TDet

/-! ## Cache key computation (`get_tokens_from_file`, line 87) -/

/-- Python `str.replace(pat, "")` for a pattern: scan left to right and
delete every non-overlapping occurrence of `pat`. -/
def replaceAll (pat : List Char) (s : List Char) : List Char :=
  match s with
  | [] => []
  | c :: rest =>
    if h : pat ≠ [] ∧ pat.isPrefixOf (c :: rest) then
      replaceAll pat ((c :: rest).drop pat.length)
    else c :: replaceAll pat rest
termination_by s.length
decreasing_by
  · have hp : 0 < pat.length := List.length_pos.mpr h.1
    simp only [List.length_drop, List.length_cons]
    omega
  · simp

/-- Embedding of the cache-key computation
`Path(str(file_path).replace(str(repo_dir), ""))`
(`get_tokens_from_directory.py` line 87). -/
def relativeFilePath (repoDir filePath : String) : String :=
  String.mk (replaceAll repoDir.data filePath.data)

theorem replaceAll_nil (pat : List Char) : replaceAll pat [] = [] := by
  rw [replaceAll]

theorem replaceAll_cons_of_nomatch (pat : List Char) (c : Char)
    (rest : List Char) (h : ¬ pat.isPrefixOf (c :: rest)) :
    replaceAll pat (c :: rest) = c :: replaceAll pat rest := by
  rw [replaceAll]
  rw [dif_neg (by intro hb; exact h hb.2)]

theorem replaceAll_skip (pat a t : List Char)
    (ha : ∀ a₂ ∈ a.tails, a₂ ≠ [] → ¬ pat.isPrefixOf (a₂ ++ t)) :
    replaceAll pat (a ++ t) = a ++ replaceAll pat t := by
  induction a with
  | nil => simp
  | cons c a1 ih =>
    have hcur : ¬ pat.isPrefixOf ((c :: a1) ++ t) :=
      ha (c :: a1) (by simp [List.mem_tails]) (by simp)
    rw [List.cons_append, replaceAll_cons_of_nomatch pat c (a1 ++ t) hcur]
    rw [ih (fun a2 hmem hne => ha a2 ?_ hne)]
    · simp
    · simp only [List.mem_tails] at hmem ⊢
      exact hmem.trans (List.suffix_cons c a1)

theorem replaceAll_drop_head (pat s : List Char) (h : pat ≠ []) :
    replaceAll pat (pat ++ s) = replaceAll pat s := by
  rcases pat with _ | ⟨c, p1⟩
  · exact absurd rfl h
  · rw [List.cons_append, replaceAll]
    rw [dif_pos ⟨h, by rw [← List.cons_append]; exact
      (List.isPrefixOf_iff_prefix).mpr (List.prefix_append _ _)⟩]
    rw [← List.cons_append, List.drop_left]

theorem replaceAll_of_no_occurrence (pat s : List Char)
    (hs : ∀ s₂ ∈ s.tails, s₂ ≠ [] → ¬ pat.isPrefixOf s₂) :
    replaceAll pat s = s := by
  have h := replaceAll_skip pat s [] (by simpa using hs)
  simpa [replaceAll_nil] using h

/-- Claim C10: with a repository root, the cache key of a file path is the
path with every occurrence of the root string deleted — not only a leading
prefix.  For a path of the shape `root ++ a ++ root ++ b` whose only
occurrences of the root are the two visible ones, the key is `a ++ b`: the
interior occurrence is removed as well, which differs from stripping just
the leading prefix (that would leave `a ++ root ++ b`). -/
theorem claim10_cache_key_deletes_every_occurrence
    (root a b : List Char) (hr : root ≠ [])
    (ha : ∀ a₂ ∈ a.tails, a₂ ≠ [] → ¬ root.isPrefixOf (a₂ ++ (root ++ b)))
    (hb : ∀ b₂ ∈ b.tails, b₂ ≠ [] → ¬ root.isPrefixOf b₂) :
    relativeFilePath (String.mk root)
        (String.mk (root ++ a ++ root ++ b))
      = String.mk (a ++ b) ∧
    String.mk (a ++ b) ≠ String.mk (a ++ root ++ b) := by
  constructor
  · unfold relativeFilePath
    show String.mk (replaceAll root (root ++ a ++ root ++ b)) = _
    have hlist : replaceAll root (root ++ a ++ root ++ b) = a ++ b := by
      have h0 : root ++ a ++ root ++ b = root ++ (a ++ (root ++ b)) := by
        simp [List.append_assoc]
      rw [h0, replaceAll_drop_head root _ hr, replaceAll_skip root a _ ha,
        replaceAll_drop_head root b hr,
        replaceAll_of_no_occurrence root b hb]
    rw [hlist]
  · intro he
    have hlen : (a ++ b).length = (a ++ root ++ b).length := by
      have := congrArg String.length he
      simpa [String.length] using this
    simp only [List.length_append] at hlen
    have : root.length = 0 := by omega
    exact hr (List.length_eq_zero.mp this)

/-- Witness for C10: root `/r`, interior part `/x`, tail `/y`; the key for
`/r/x/r/y` is `/x/y`, with the interior `/r` deleted. -/
theorem claim10_witness :
    relativeFilePath (String.mk ['/', 'r'])
        (String.mk (['/', 'r'] ++ ['/', 'x'] ++ ['/', 'r'] ++ ['/', 'y']))
      = String.mk (['/', 'x'] ++ ['/', 'y']) ∧
    String.mk (['/', 'x'] ++ ['/', 'y'])
      ≠ String.mk (['/', 'x'] ++ ['/', 'r'] ++ ['/', 'y']) :=
  claim10_cache_key_deletes_every_occurrence ['/', 'r'] ['/', 'x'] ['/', 'y']
    (by decide) (by decide) (by decide)

end TDet

namespace TDet

/-! ## Shard loading (`retriever.py`, `Retriever.__init__`, lines 99-121) -/

/-- Lexicographic code-point comparison of character lists, the order
Python `sorted` uses on file-name strings. -/
def charListLe : List Char → List Char → Bool
  | [], _ => true
  | _ :: _, [] => false
  | a :: as, b :: bs =>
    if a < b then true else if b < a then false else charListLe as bs

/-- String comparison by code points. -/
def strLe (a b : String) : Bool := charListLe a.data b.data

/-- Stable insertion of a keyed item: it goes before the first entry whose
key it does not exceed, so equal keys keep their original relative
order. -/
def insertByKey {β : Type} (x : String × β) :
    List (String × β) → List (String × β)
  | [] => [x]
  | y :: ys => if strLe x.1 y.1 then x :: y :: ys else y :: insertByKey x ys

/-- Python `sorted` on a list of keyed items (`sorted` is a stable
comparison sort; any stable comparison sort computes this function). -/
def sortByKey {β : Type} : List (String × β) → List (String × β)
  | [] => []
  | x :: xs => insertByKey x (sortByKey xs)

/-- Failure modes of the load: `IndexError` from `mapping_files[i]` when an
embeddings file has no mate, and the `torch.cat` error on an empty tensor
list when there is no embeddings file at all. -/
inductive LoadErr where
  | indexError
  | catEmpty
deriving DecidableEq

/-- Loop of `Retriever.__init__` lines 112-119: for each index `i` below
the embeddings-file count, append the i-th vector block and extend the
name list with the i-th mapping file's `"mapping"` array.  A missing
mapping file raises `IndexError`; mapping files beyond the embeddings
count are never touched. -/
def loadLoop {α : Type} :
    List (String × List α) → List (String × List String) →
    Except LoadErr (List (List α) × List String)
  | [], _ => .ok ([], [])
  | _ :: _, [] => .error .indexError
  | e :: es, m :: ms =>
    match loadLoop es ms with
    | .error err => .error err
    | .ok (blocks, names) => .ok (e.2 :: blocks, m.2 ++ names)

/-- Embedding of the shard load of `Retriever.__init__` (`retriever.py`
lines 99-121): glob results for `unittest_index_*.pt` and
`unittest_index_mapping_*.json` are each sorted, paired by position, read,
and concatenated into one flat index (`torch.cat` of the blocks and one
name list). -/
def retrieverLoad {α : Type} (embFiles : List (String × List α))
    (mapFiles : List (String × List String)) :
    Except LoadErr (List α × List String) :=
  match loadLoop (sortByKey embFiles) (sortByKey mapFiles) with
  | .error e => .error e
  | .ok (blocks, names) =>
    if blocks.isEmpty then .error .catEmpty
    else .ok (blocks.flatten, names)

/-- Vector-block artifact persisted for a shard whose ground-truth content
is a list of `(name, vector)` units: the vectors in unit order. -/
def shardEmbFile {α : Type} (s : String × List (String × α)) :
    String × List α :=
  (s.1, s.2.map Prod.snd)

/-- Name-mapping artifact persisted for the same shard: the names in unit
order. -/
def shardMapFile {α : Type} (s : String × List (String × α)) :
    String × List String :=
  (s.1, s.2.map Prod.fst)

theorem insertByKey_map {β γ : Type} (g : β → γ) (x : String × β)
    (l : List (String × β)) :
    insertByKey (x.1, g x.2) (l.map fun p => (p.1, g p.2))
      = (insertByKey x l).map fun p => (p.1, g p.2) := by
  induction l with
  | nil => rfl
  | cons y ys ih =>
    simp only [List.map_cons, insertByKey]
    by_cases h : strLe x.1 y.1 = true
    · simp [h]
    · simp only [Bool.not_eq_true] at h
      simp [h, ih]

theorem sortByKey_map {β γ : Type} (g : β → γ) (l : List (String × β)) :
    sortByKey (l.map fun p => (p.1, g p.2))
      = (sortByKey l).map fun p => (p.1, g p.2) := by
  induction l with
  | nil => rfl
  | cons x xs ih =>
    simp only [List.map_cons, sortByKey, ih]
    exact insertByKey_map g x (sortByKey xs)

theorem length_insertByKey {β : Type} (x : String × β)
    (l : List (String × β)) :
    (insertByKey x l).length = l.length + 1 := by
  induction l with
  | nil => rfl
  | cons y ys ih =>
    simp only [insertByKey]
    by_cases h : strLe x.1 y.1 = true
    · simp [h]
    · simp only [Bool.not_eq_true] at h
      simp [h, ih]

theorem length_sortByKey {β : Type} (l : List (String × β)) :
    (sortByKey l).length = l.length := by
  induction l with
  | nil => rfl
  | cons x xs ih => simp [sortByKey, length_insertByKey, ih]

theorem loadLoop_parallel {α : Type}
    (S : List (String × List (String × α))) :
    loadLoop (S.map shardEmbFile) (S.map shardMapFile)
      = .ok (S.map (fun s => s.2.map Prod.snd),
             (S.map (fun s => s.2.map Prod.fst)).flatten) := by
  induction S with
  | nil => rfl
  | cons s S ih =>
    simp only [List.map_cons, List.flatten_cons, loadLoop, ih,
      shardEmbFile, shardMapFile]

theorem zip_flatten_units {α : Type} (L : List (List (String × α))) :
    ((L.map (fun u => u.map Prod.fst)).flatten.zip
        (L.map (fun u => u.map Prod.snd)).flatten)
      = L.flatten := by
  induction L with
  | nil => rfl
  | cons u L ih =>
    simp only [List.map_cons, List.flatten_cons]
    rw [List.zip_append (by simp)]
    rw [ih, List.zip_map']
    simp

/-- Claim C6: loading all shards sorts the two artifact lists
independently, pairs them by position, and concatenates blocks and name
lists in that shared order; for ground-truth shards (each persisted as a
vector block and a name list over the same unit sequence) the flat index
pairs the i-th name with the i-th vector of the same unit — the zip of the
loaded names with the loaded vectors is exactly the concatenation of the
sorted shards' unit lists. -/
theorem claim6_shard_concat {α : Type}
    (shards : List (String × List (String × α))) (h : shards ≠ []) :
    retrieverLoad (shards.map shardEmbFile) (shards.map shardMapFile)
        = .ok (((sortByKey shards).map (fun s => s.2.map Prod.snd)).flatten,
               ((sortByKey shards).map (fun s => s.2.map Prod.fst)).flatten)
      ∧
    (((sortByKey shards).map (fun s => s.2.map Prod.fst)).flatten.zip
        ((sortByKey shards).map (fun s => s.2.map Prod.snd)).flatten)
      = ((sortByKey shards).map Prod.snd).flatten := by
  have hemb : sortByKey (shards.map shardEmbFile)
      = (sortByKey shards).map shardEmbFile :=
    sortByKey_map (fun u => u.map Prod.snd) shards
  have hmap : sortByKey (shards.map shardMapFile)
      = (sortByKey shards).map shardMapFile :=
    sortByKey_map (fun u => u.map Prod.fst) shards
  have hne : sortByKey shards ≠ [] := by
    intro he
    have := length_sortByKey shards
    rw [he] at this
    exact h (List.length_eq_zero.mp this.symm)
  constructor
  · unfold retrieverLoad
    rw [hemb, hmap, loadLoop_parallel]
    have hblocks :
        ((sortByKey shards).map (fun s => s.2.map Prod.snd)).isEmpty
          = false := by
      rcases hs : sortByKey shards with _ | ⟨s, S⟩
      · exact absurd hs hne
      · rfl
    simp [hblocks]
  · have hz := zip_flatten_units ((sortByKey shards).map Prod.snd)
    simpa [List.map_map, Function.comp] using hz

/-- Witness for C6: two shards holding units `(t1, 1), (t2, 2)` and
`(t3, 3)` load to vectors `[1, 2, 3]` and names `[t1, t2, t3]` in the same
row order. -/
theorem claim6_witness :
    retrieverLoad
        (List.map shardEmbFile
          [("unittest_index_a_0.pt", [("t1", (1 : Int)), ("t2", 2)]),
           ("unittest_index_b_0.pt", [("t3", 3)])])
        (List.map shardMapFile
          [("unittest_index_a_0.pt", [("t1", (1 : Int)), ("t2", 2)]),
           ("unittest_index_b_0.pt", [("t3", 3)])])
      = .ok ([1, 2, 3], ["t1", "t2", "t3"]) := by
  have h := claim6_shard_concat
      [("unittest_index_a_0.pt", [("t1", (1 : Int)), ("t2", 2)]),
       ("unittest_index_b_0.pt", [("t3", 3)])] (by decide)
  rw [h.1]
  rfl

theorem loadLoop_more_emb {α : Type} (es : List (String × List α))
    (ms : List (String × List String)) (h : ms.length < es.length) :
    loadLoop es ms = .error .indexError := by
  induction es generalizing ms with
  | nil => simp at h
  | cons e es ih =>
    rcases ms with _ | ⟨m, ms⟩
    · rfl
    · simp only [List.length_cons] at h
      rw [loadLoop, ih ms (by omega)]

theorem loadLoop_enough_maps {α : Type} (es : List (String × List α))
    (ms : List (String × List String)) (h : es.length ≤ ms.length) :
    ∃ blocks names, loadLoop es ms = .ok (blocks, names)
      ∧ blocks.length = es.length := by
  induction es generalizing ms with
  | nil => exact ⟨[], [], rfl, rfl⟩
  | cons e es ih =>
    rcases ms with _ | ⟨m, ms⟩
    · simp at h
    · simp only [List.length_cons] at h
      obtain ⟨blocks, names, hok, hlen⟩ := ih ms (by omega)
      refine ⟨e.2 :: blocks, m.2 ++ names, ?_, by simp [hlen]⟩
      rw [loadLoop, hok]

/-- Counterexample to claim C7: one vector shard against two mapping
shards is an unequal count, yet the load succeeds, silently ignoring the
extra mapping file. -/
theorem claim7_counterexample :
    ([("unittest_index_a_0.pt", [(5 : Int)])].length
        ≠ [("unittest_index_mapping_a_0.json", ["t1"]),
           ("unittest_index_mapping_b_0.json", ["t2"])].length) ∧
    retrieverLoad [("unittest_index_a_0.pt", [(5 : Int)])]
        [("unittest_index_mapping_a_0.json", ["t1"]),
         ("unittest_index_mapping_b_0.json", ["t2"])]
      = .ok ([5], ["t1"]) :=
  ⟨by decide, rfl⟩

/-- Amendment of claim C7: the load fails only when the vector files
outnumber the mapping files (the missing mate raises `IndexError`) or when
there is no vector file at all (`torch.cat` on an empty list); when the
mapping files are in excess and at least one vector file exists, the
extras are ignored and the load succeeds. -/
theorem claim7_shard_mismatch_amended {α : Type}
    (embFiles : List (String × List α))
    (mapFiles : List (String × List String)) :
    (mapFiles.length < embFiles.length →
      retrieverLoad embFiles mapFiles = .error .indexError) ∧
    (embFiles = [] →
      retrieverLoad embFiles mapFiles = .error .catEmpty) ∧
    (embFiles ≠ [] → embFiles.length ≤ mapFiles.length →
      ∃ out, retrieverLoad embFiles mapFiles = .ok out) := by
  refine ⟨?_, ?_, ?_⟩
  · intro h
    unfold retrieverLoad
    have hlen : (sortByKey mapFiles).length < (sortByKey embFiles).length := by
      rw [length_sortByKey, length_sortByKey]
      exact h
    rw [loadLoop_more_emb _ _ hlen]
  · intro h
    subst h
    unfold retrieverLoad
    have h0 : sortByKey ([] : List (String × List α)) = [] := rfl
    rw [h0]
    rcases hs : loadLoop ([] : List (String × List α))
        (sortByKey mapFiles) with e | ⟨blocks, names⟩
    · cases hs
    · cases hs
      rfl
  · intro hne hlen
    unfold retrieverLoad
    obtain ⟨blocks, names, hok, hblen⟩ :=
      loadLoop_enough_maps (sortByKey embFiles) (sortByKey mapFiles)
        (by rw [length_sortByKey, length_sortByKey]; exact hlen)
    rw [hok]
    have hbne : blocks.isEmpty = false := by
      rcases blocks with _ | ⟨x, xs⟩
      · rw [length_sortByKey] at hblen
        exact absurd (List.length_eq_zero.mp hblen.symm) hne
      · rfl
    refine ⟨(blocks.flatten, names), ?_⟩
    simp [hbne]

/-- Witness for the amended C7 at the three concrete shapes: more vector
files than mapping files, no vector file, and fewer vector files than
mapping files. -/
theorem claim7_witness :
    retrieverLoad [("a", [(1 : Int)]), ("b", [2])] [("a", ["t1"])]
        = .error .indexError ∧
    retrieverLoad ([] : List (String × List Int)) [("a", ["t1"])]
        = .error .catEmpty ∧
    ∃ out, retrieverLoad [("a", [(1 : Int)])]
        [("a", ["t1"]), ("b", ["t2"])] = .ok out :=
  ⟨(claim7_shard_mismatch_amended _ _).1 (by decide),
   (claim7_shard_mismatch_amended _ _).2.1 rfl,
   (claim7_shard_mismatch_amended _ _).2.2 (by decide) (by decide)⟩

end TDet

namespace TDet

/-! ## Similarity scoring (`retriever.py`, `Retriever.evaluate_embedding`,
lines 124-143).  The cosine-similarity kernel `F.cosine_similarity` is the
numeric collaborator; it enters as the function parameter `sim`, applied as
`sim (index row) (query)`. -/

inductive EvalErr where
  | indexError
deriving DecidableEq

/-- Python side of `if test not in mapping: ...; mapping[test].append(score)`:
append the score to the key's list, creating the key at the end on first
sight. -/
def addScore (m : List (String × List ℚ)) (k : String) (v : ℚ) :
    List (String × List ℚ) :=
  match m with
  | [] => [(k, [v])]
  | p :: rest =>
    if p.1 = k then (p.1, p.2 ++ [v]) :: rest else p :: addScore rest k v

/-- Inner loop over the rows of the similarity matrix for one query
embedding (`retriever.py` lines 133-138): row `ind` contributes
`sim vecs[ind] q` to the list of `names[ind]`; `names[ind]` raises
`IndexError` when the name list is shorter than the vector block. -/
def scoreRows {α : Type} (sim : α → α → ℚ) (q : α) :
    List α → List String → List (String × List ℚ) →
    Except EvalErr (List (String × List ℚ))
  | [], _, m => .ok m
  | _ :: _, [], _ => .error .indexError
  | v :: vs, nm :: ns, m => scoreRows sim q vs ns (addScore m nm (sim v q))

/-- Outer loop over the query embeddings (`retriever.py` lines 128-138);
the mapping persists across queries. -/
def evalQueries {α : Type} (sim : α → α → ℚ) (vecs : List α)
    (names : List String) :
    List α → List (String × List ℚ) →
    Except EvalErr (List (String × List ℚ))
  | [], m => .ok m
  | q :: qs, m =>
    match scoreRows sim q vecs names m with
    | .error e => .error e
    | .ok m1 => evalQueries sim vecs names qs m1

/-- Condensation step (`retriever.py` lines 141-142): each name's score
list is replaced by `sum(score) / len(score)`. -/
def condense (m : List (String × List ℚ)) : List (String × ℚ) :=
  m.map fun p => (p.1, p.2.sum / (p.2.length : ℚ))

/-- Embedding of `Retriever.evaluate_embedding(pooled_embeddings)`
(`retriever.py` lines 124-143). -/
def evaluateEmbedding {α : Type} (sim : α → α → ℚ) (vecs : List α)
    (names : List String) (queries : List α) :
    Except EvalErr (List (String × ℚ)) :=
  match evalQueries sim vecs names queries [] with
  | .error e => .error e
  | .ok m => .ok (condense m)

/-- Scores one query contributes to a name: one per index row carrying that
name, in row order. -/
def rowScores {α : Type} (sim : α → α → ℚ) (q : α) (vecs : List α)
    (names : List String) (n : String) : List ℚ :=
  ((vecs.zip names).filter fun p => p.2 == n).map fun p => sim p.1 q

/-- Every score collected for a name across all queries and all index rows
sharing it, queries outermost. -/
def collectedScores {α : Type} (sim : α → α → ℚ) (vecs : List α)
    (names : List String) (queries : List α) (n : String) : List ℚ :=
  (queries.map fun q => rowScores sim q vecs names n).flatten

/-- Accumulation of a score batch onto an optional existing list, matching
what the mapping holds for one key. -/
def appendOpt (o : Option (List ℚ)) (l : List ℚ) : Option (List ℚ) :=
  match o with
  | none => if l = [] then none else some l
  | some xs => some (xs ++ l)

theorem appendOpt_nil (o : Option (List ℚ)) : appendOpt o [] = o := by
  cases o <;> simp [appendOpt]

theorem appendOpt_append (o : Option (List ℚ)) (l1 l2 : List ℚ) :
    appendOpt (appendOpt o l1) l2 = appendOpt o (l1 ++ l2) := by
  cases o with
  | none =>
    rcases l1 with _ | ⟨x, xs⟩
    · simp [appendOpt]
    · simp [appendOpt]
  | some xs => simp [appendOpt]

theorem mfind_addScore (m : List (String × List ℚ)) (k k' : String)
    (v : ℚ) :
    mfind (addScore m k v) k'
      = if k = k' then some ((mfind m k').getD [] ++ [v])
        else mfind m k' := by
  induction m with
  | nil =>
    by_cases h : k = k' <;> simp [addScore, mfind, h]
  | cons p rest ih =>
    by_cases hp : p.1 = k
    · rw [addScore, if_pos hp]
      by_cases h : k = k'
      · subst h
        rw [mfind, if_pos hp, mfind, if_pos hp]
        simp
      · have hp' : ¬ p.1 = k' := by rw [hp]; exact h
        rw [mfind, if_neg hp', if_neg h, mfind, if_neg hp']
    · rw [addScore, if_neg hp]
      by_cases h : p.1 = k'
      · have hk : ¬ k = k' := fun he => hp (by rw [he, h])
        rw [mfind, if_pos h, if_neg hk, mfind, if_pos h]
      · rw [mfind, if_neg h, ih, mfind, if_neg h]

theorem scoreRows_spec {α : Type} (sim : α → α → ℚ) (q : α)
    (vecs : List α) (names : List String) (m : List (String × List ℚ))
    (hlen : vecs.length ≤ names.length) :
    ∃ m1, scoreRows sim q vecs names m = .ok m1 ∧
      ∀ n, mfind m1 n
        = appendOpt (mfind m n) (rowScores sim q vecs names n) := by
  induction vecs generalizing names m with
  | nil =>
    refine ⟨m, rfl, fun n => ?_⟩
    simp [rowScores, appendOpt_nil]
  | cons v vs ih =>
    rcases names with _ | ⟨nm, ns⟩
    · simp at hlen
    · obtain ⟨m1, hok, hspec⟩ :=
        ih ns (addScore m nm (sim v q)) (by simpa using hlen)
      refine ⟨m1, hok, fun n => ?_⟩
      rw [hspec n, mfind_addScore]
      have hrow : rowScores sim q (v :: vs) (nm :: ns) n
          = (if nm = n then [sim v q] else []) ++ rowScores sim q vs ns n := by
        by_cases h : nm = n <;>
          simp [rowScores, List.zip_cons_cons, List.filter_cons, h]
      rw [hrow]
      by_cases h : nm = n
      · subst h
        cases ho : mfind m nm with
        | none => simp [appendOpt, ho]
        | some xs => simp [appendOpt, ho]
      · simp [h]

theorem evalQueries_spec {α : Type} (sim : α → α → ℚ) (vecs : List α)
    (names : List String) (queries : List α) (m : List (String × List ℚ))
    (hlen : vecs.length ≤ names.length) :
    ∃ M, evalQueries sim vecs names queries m = .ok M ∧
      ∀ n, mfind M n
        = appendOpt (mfind m n)
            (collectedScores sim vecs names queries n) := by
  induction queries generalizing m with
  | nil =>
    refine ⟨m, rfl, fun n => ?_⟩
    simp [collectedScores, appendOpt_nil]
  | cons q qs ih =>
    obtain ⟨m1, hok1, hspec1⟩ := scoreRows_spec sim q vecs names m hlen
    obtain ⟨M, hok, hspec⟩ := ih m1
    refine ⟨M, ?_, fun n => ?_⟩
    · rw [evalQueries, hok1]
      exact hok
    · rw [hspec n, hspec1 n, appendOpt_append]
      simp [collectedScores]

theorem mfind_condense (m : List (String × List ℚ)) (n : String) :
    mfind (condense m) n
      = (mfind m n).map fun l => l.sum / (l.length : ℚ) := by
  induction m with
  | nil => rfl
  | cons p rest ih =>
    show mfind ((p.1, p.2.sum / (p.2.length : ℚ)) :: condense rest) n = _
    by_cases h : p.1 = n
    · simp [mfind, h]
    · rw [mfind, if_neg h, ih, mfind, if_neg h]

/-- Similarity kernel of the C1 example: rows `0` and `1` (both named
`"A"`) score `0.4` and `0.6`, row `2` (named `"B"`) scores `0.9`. -/
def exSimC1 : Nat → Nat → ℚ :=
  fun v _ => if v = 0 then 2/5 else if v = 1 then 3/5 else 9/10

/-- Claim C1: for every loaded index and non-empty query list, the score
mapping assigns to each name the arithmetic mean of every per-row
cosine-similarity score collected for it across all queries and all rows
sharing the name; and the worked example with rows scoring `0.4`, `0.6`
(name `A`) and `0.9` (name `B`) yields `A ↦ 0.5` and `B ↦ 0.9`. -/
theorem claim1_score_mean :
    (∀ (α : Type) (sim : α → α → ℚ) (vecs : List α) (names : List String)
      (queries : List α), vecs.length ≤ names.length → queries ≠ [] →
      ∃ M, evaluateEmbedding sim vecs names queries = .ok M ∧
        ∀ n, mfind M n
          = if collectedScores sim vecs names queries n = [] then none
            else some ((collectedScores sim vecs names queries n).sum
              / ((collectedScores sim vecs names queries n).length : ℚ))) ∧
    evaluateEmbedding exSimC1 [0, 1, 2] ["A", "A", "B"] [7]
      = .ok [("A", 1/2), ("B", 9/10)] := by
  constructor
  · intro α sim vecs names queries hlen hq
    obtain ⟨m, hok, hspec⟩ := evalQueries_spec sim vecs names queries [] hlen
    refine ⟨condense m, ?_, fun n => ?_⟩
    · unfold evaluateEmbedding
      rw [hok]
    · rw [mfind_condense, hspec n]
      have h0 : mfind ([] : List (String × List ℚ)) n = none := rfl
      rw [h0]
      by_cases h : collectedScores sim vecs names queries n = []
      · simp [appendOpt, h]
      · simp [appendOpt, h]
  · have h1 : evalQueries exSimC1 [0, 1, 2] ["A", "A", "B"] [7] []
        = .ok [("A", [2/5, 3/5]), ("B", [9/10])] := rfl
    unfold evaluateEmbedding
    rw [h1]
    norm_num [condense]

/-- Witness for C1 at the example index: the general theorem applied to the
concrete similarity kernel recovers the mean `0.5` for `A`. -/
theorem claim1_witness :
    ∃ M, evaluateEmbedding exSimC1 [0, 1, 2] ["A", "A", "B"] [7]
        = .ok M ∧ mfind M "A" = some (1/2) := by
  obtain ⟨M, hok, hspec⟩ := claim1_score_mean.1 Nat exSimC1 [0, 1, 2]
    ["A", "A", "B"] [7] (by decide) (by decide)
  refine ⟨M, hok, ?_⟩
  rw [hspec "A"]
  have hc : collectedScores exSimC1 [0, 1, 2] ["A", "A", "B"] [7] "A"
      = [2/5, 3/5] := rfl
  rw [hc]
  rw [if_neg (by simp)]
  norm_num

end TDet
